import Mathlib

/-!
Shallow embedding of the row-filtering core of perfetto's trace processor
(`src/trace_processor/db/column/`): the `DenseNullOverlay` column overlay,
the `FakeStorage` test double, and the generic comparison loop
`LinearSearchWithComparator` from `utils.h`, together with proofs of the
behavioural claims about them.

The inner storage wrapped by the overlay is modelled as a record of the
abstract `Storage`/`Column` interface operations; the `BitVector`
collaborator (whose implementation lives outside the given sources) is
modelled from its specified operational contract as a `List Bool`.
-/

namespace Perfetto

/-- FilterOp: predicate operators consumed by the storage interface
(equality, ordering, nullness; from `types.h` / the interface spec). -/
inductive FilterOp where
  | kEq | kNe | kLt | kLe | kGt | kGe | kIsNull | kIsNotNull
deriving DecidableEq

/-- SearchValidationResult: tri-state short-circuit classification
returned by `ValidateSearchConstraints`. -/
inductive SearchValidationResult where
  | kOk | kNoData | kAllData
deriving DecidableEq

/-- Modelled from the spec: `SqlValue` is an externally defined tagged
predicate operand (integer/string/null) which this core treats opaquely,
only forwarding it to the inner storage. -/
inductive SqlValue where
  | null
  | long (v : Int)
  | str (s : String)
deriving DecidableEq

/-- Range: half-open row interval `[start, stop)`; C++ field `end` is a
Lean keyword, so it is named `stop` here. -/
structure Range where
  start : Nat := 0
  stop : Nat := 0
deriving DecidableEq

/-- Modelled from the spec: `Range::Contains(i)` — membership in the
half-open interval. -/
def Range.Contains (r : Range) (i : Nat) : Bool :=
  decide (r.start ≤ i) && decide (i < r.stop)

/-- Modelled from the spec: `BitVector` is a bit-per-row sequence; we
represent it as a `List Bool`. -/
abbrev BitVector := List Bool

/-- Modelled from the spec: `BitVector::IsSet(i)` — random access; reads
past the end are never meaningful in the modelled code paths and default
to `false`. -/
def BitVector.IsSet (bv : BitVector) (i : Nat) : Bool :=
  bv.getD i false

/-- Modelled from the spec: `BitVector::Not()` — flip every bit in place. -/
def BitVector.Not (bv : BitVector) : BitVector :=
  bv.map not

/-- Modelled from the spec: `BitVector::And(other)` — in-place bitwise
conjunction of size-compatible operands (the result has the common
length). -/
def BitVector.And (bv other : BitVector) : BitVector :=
  List.zipWith and bv other

/-- Modelled from the spec: `BitVector::Or(other)` — in-place bitwise
disjunction of size-compatible operands. -/
def BitVector.Or (bv other : BitVector) : BitVector :=
  List.zipWith or bv other

/-- Modelled from the spec: `BitVector::Resize(n, fill)` — grow or shrink
to exactly `n` bits, new bits getting `fill`. -/
def BitVector.Resize (bv : BitVector) (n : Nat) (fill : Bool) : BitVector :=
  if n ≤ bv.length then bv.take n else bv ++ List.replicate (n - bv.length) fill

/-- Modelled from the spec: `BitVector::Copy()` — an independent clone,
extensionally the identity. -/
def BitVector.Copy (bv : BitVector) : BitVector := bv

/-- Modelled from the spec: `BitVector::IntersectRange(start, stop)` — a
new BitVector of length `stop` whose bits in `[start, stop)` mirror the
source and whose bits outside that window are false. -/
def BitVector.IntersectRange (bv : BitVector) (s e : Nat) : BitVector :=
  (List.range e).map fun i => decide (s ≤ i) && bv.IsSet i

/-- Indices ordering tag (`Indices::State`). -/
inductive IndicesState where
  | kUnknown | kMonotonic | kNonmonotonic
deriving DecidableEq

/-- Indices: a candidate row-id array addressed by position; `data` is the
row-id sequence (C++ pointer plus `size`), `state` the ordering tag. -/
structure Indices where
  data : List Nat
  state : IndicesState
deriving DecidableEq

/-- Size of an indices array (`indices.size` in the C++ code). -/
def Indices.size (indices : Indices) : Nat := indices.data.length

/-- RangeOrBitVector: the result sum type, either a contiguous `Range` or
a `BitVector`. -/
inductive RangeOrBitVector where
  | range (r : Range)
  | bitvector (bv : BitVector)
deriving DecidableEq

/-- The bit a `RangeOrBitVector` result assigns to row/position `i`: for a
`Range`, membership in the half-open interval; for a `BitVector`, the
stored bit. -/
def RangeOrBitVector.bitAt : RangeOrBitVector → Nat → Bool
  | .range r, i => decide (r.start ≤ i) && decide (i < r.stop)
  | .bitvector bv, i => bv.IsSet i

/-- The abstract `Storage`/`Column` interface as consumed by the overlay:
the operations `DenseNullOverlay` delegates to on its inner storage. -/
structure Column where
  ValidateSearchConstraints : SqlValue → FilterOp → SearchValidationResult
  Search : FilterOp → SqlValue → Range → RangeOrBitVector
  IndexSearch : FilterOp → SqlValue → Indices → RangeOrBitVector
  OrderedIndexSearch : FilterOp → SqlValue → Indices → Range

/-- Modelled from the spec: `BitVector::Builder` — append-only incremental
construction of a BitVector of a fixed final size; `target` is that size
and `bits` the bits appended so far (including the initially skipped,
unset bits). -/
structure Builder where
  target : Nat
  bits : List Bool
deriving DecidableEq

/-- Modelled from the spec: `Builder(size, skip)` (and `Builder(size)` via
`skip = 0`) — the first `skip` bits are unset and the cursor starts at
`skip`. -/
def Builder.init (size skip : Nat) : Builder :=
  ⟨size, List.replicate skip false⟩

/-- Modelled from the spec: `Builder::Append(bool)`. -/
def Builder.Append (b : Builder) (x : Bool) : Builder :=
  ⟨b.target, b.bits ++ [x]⟩

/-- Modelled from the spec: `Builder::AppendWord(word)` — append one
64-bit word at once; bit `k` of the word becomes the next bit `k`. -/
def Builder.AppendWord (b : Builder) (w : Nat) : Builder :=
  ⟨b.target, b.bits ++ (List.range 64).map w.testBit⟩

/-- Modelled from the spec: `Builder::Build()` — the finished BitVector of
exactly `target` bits; bits never appended stay unset. -/
def Builder.Build (b : Builder) : BitVector :=
  (b.bits ++ List.replicate (b.target - b.bits.length) false).take b.target

/-- Modelled from the spec: `Builder::BitsUntilFull()`. -/
def Builder.BitsUntilFull (b : Builder) : Nat :=
  b.target - b.bits.length

/-- Modelled from the spec: `Builder::BitsUntilWordBoundaryOrFull()` —
how many single bits to append before the cursor reaches a 64-bit word
boundary, capped by the remaining capacity. -/
def Builder.BitsUntilWordBoundaryOrFull (b : Builder) : Nat :=
  min ((64 - b.bits.length % 64) % 64) b.BitsUntilFull

/-- Modelled from the spec: `Builder::BitsInCompleteWordsUntilFull()` —
the number of bits in whole 64-bit words that still fit. -/
def Builder.BitsInCompleteWordsUntilFull (b : Builder) : Nat :=
  (b.BitsUntilFull / 64) * 64

/-- A scalar append loop: append `f off, f (off+1), …` for `n` iterations
(the `for`/`Append` loops of the C++ code, with `off` playing the role of
the advancing data cursor). -/
def appendRun (f : Nat → Bool) : Nat → Nat → Builder → Builder
  | _, 0, b => b
  | off, n + 1, b => appendRun f (off + 1) n (b.Append (f off))

/-- DenseNullOverlay: composes an exclusively owned inner `Column` with a
borrowed non-null bitmask (`non_null_` in the C++ code). -/
structure DenseNullOverlay where
  inner : Column
  non_null : BitVector

namespace DenseNullOverlay

/-- `DenseNullOverlay::ValidateSearchConstraints`: `IsNull` is always
answerable by the overlay alone; everything else delegates to inner. -/
def ValidateSearchConstraints (d : DenseNullOverlay) (sql_val : SqlValue)
    (op : FilterOp) : SearchValidationResult :=
  if op = .kIsNull then .kOk
  else d.inner.ValidateSearchConstraints sql_val op

/-- The shared tail of `DenseNullOverlay::Search` (everything after the
`IsNull` short-circuit `switch`): run the inner search, normalise a range
result through `IntersectRange`/`Resize`, then combine with nullness. -/
def SearchRest (d : DenseNullOverlay) (op : FilterOp) (sql_val : SqlValue)
    (inr : Range) : BitVector :=
  let inner_res := d.inner.Search op sql_val inr
  let res : BitVector :=
    match inner_res with
    | .range inner_range =>
        (d.non_null.IntersectRange inner_range.start inner_range.stop).Resize
          inr.stop false
    | .bitvector bv => bv
  if op = .kIsNull then
    res.Or (((d.non_null.Copy).Resize inr.stop false).Not)
  else
    res.And d.non_null

/-- `DenseNullOverlay::Search`. -/
def Search (d : DenseNullOverlay) (op : FilterOp) (sql_val : SqlValue)
    (inr : Range) : RangeOrBitVector :=
  if op = .kIsNull then
    match d.inner.ValidateSearchConstraints sql_val op with
    | .kNoData =>
        .bitvector (((d.non_null.IntersectRange inr.start inr.stop).Not).Resize
          inr.stop false)
    | .kAllData => .range inr
    | .kOk => .bitvector (d.SearchRest op sql_val inr)
  else
    .bitvector (d.SearchRest op sql_val inr)

/-- The shared tail of `DenseNullOverlay::IndexSearch` (after the `IsNull`
short-circuit `switch`). -/
def IndexSearchRest (d : DenseNullOverlay) (op : FilterOp) (sql_val : SqlValue)
    (indices : Indices) : RangeOrBitVector :=
  match d.inner.IndexSearch op sql_val indices with
  | .range inner_range =>
      .bitvector (Builder.Build (appendRun
        (fun i => d.non_null.IsSet (indices.data.getD i 0))
        inner_range.start (inner_range.stop - inner_range.start)
        (Builder.init indices.size inner_range.start)))
  | .bitvector res =>
      let non_null : BitVector :=
        Builder.Build (appendRun
          (fun i => d.non_null.IsSet (indices.data.getD i 0))
          0 indices.size (Builder.init indices.size 0))
      if op = .kIsNull then
        .bitvector (res.Or non_null.Not)
      else
        .bitvector (res.And non_null)

/-- `DenseNullOverlay::IndexSearch`. -/
def IndexSearch (d : DenseNullOverlay) (op : FilterOp) (sql_val : SqlValue)
    (indices : Indices) : RangeOrBitVector :=
  if op = .kIsNull then
    match d.inner.ValidateSearchConstraints sql_val op with
    | .kNoData =>
        .bitvector (Builder.Build (appendRun
          (fun i => !(d.non_null.IsSet (indices.data.getD i 0)))
          0 indices.size (Builder.init indices.size 0)))
    | .kAllData => .range ⟨0, indices.size⟩
    | .kOk => d.IndexSearchRest op sql_val indices
  else
    d.IndexSearchRest op sql_val indices

end DenseNullOverlay

/-- `std::partition_point` on a row-id sequence: given the precondition
that the sequence is partitioned by `p` (every element satisfying `p`
precedes every element not satisfying it), it returns the offset of the
first element not satisfying `p`, i.e. the length of the maximal `p`-true
head. -/
def partitionPoint (p : Nat → Bool) (l : List Nat) : Nat :=
  (l.takeWhile p).length

namespace DenseNullOverlay

/-- `DenseNullOverlay::OrderedIndexSearch`; the `PERFETTO_CHECK(op !=
FilterOp::kNe)` fatal abort is modelled by returning `none`. -/
def OrderedIndexSearch (d : DenseNullOverlay) (op : FilterOp)
    (sql_val : SqlValue) (indices : Indices) : Option Range :=
  if op = .kNe then none
  else
    let non_null_offset := partitionPoint (fun i => !(d.non_null.IsSet i)) indices.data
    if op = .kIsNull then some ⟨0, non_null_offset⟩
    else
      let fallback : Option Range :=
        let inner_range := d.inner.OrderedIndexSearch op sql_val
          ⟨indices.data.drop non_null_offset, .kNonmonotonic⟩
        some ⟨inner_range.start + non_null_offset,
              inner_range.stop + non_null_offset⟩
      if op = .kIsNotNull then
        match d.inner.ValidateSearchConstraints sql_val op with
        | .kNoData => some ⟨0, 0⟩
        | .kAllData => some ⟨non_null_offset, indices.size⟩
        | .kOk => fallback
      else fallback

/-- `DenseNullOverlay::Sort`: `PERFETTO_FATAL("Not implemented")` on every
invocation, modelled as `none` (the C++ name `Sort` is a Lean keyword). -/
def SortRows (_d : DenseNullOverlay) (_data : List Nat) : Option (List Nat) :=
  none

/-- `DenseNullOverlay::StableSort`: `PERFETTO_FATAL("Not implemented")` on
every invocation, modelled as `none`. -/
def StableSort (_d : DenseNullOverlay) (_data : List Nat) : Option (List Nat) :=
  none

end DenseNullOverlay

/-- FakeStorage response strategies. -/
inductive SearchStrategy where
  | kAll | kNone | kRange | kBitVector
deriving DecidableEq

/-- FakeStorage: deterministic test double holding a preset `Range` or
`BitVector` and a logical row count. -/
structure FakeStorage where
  size_ : Nat
  strategy : SearchStrategy
  range_ : Range := {}
  bit_vector_ : BitVector := []

namespace FakeStorage

/-- `FakeStorage::ValidateSearchConstraints`: always `kOk`. -/
def ValidateSearchConstraints (_fs : FakeStorage) (_v : SqlValue)
    (_op : FilterOp) : SearchValidationResult :=
  .kOk

/-- `FakeStorage::Search`. -/
def Search (fs : FakeStorage) (_op : FilterOp) (_v : SqlValue)
    (inr : Range) : RangeOrBitVector :=
  match fs.strategy with
  | .kAll => .range inr
  | .kNone => .range {}
  | .kRange => .range ⟨max inr.start fs.range_.start, min inr.stop fs.range_.stop⟩
  | .kBitVector => .bitvector (fs.bit_vector_.IntersectRange inr.start inr.stop)

/-- `FakeStorage::IndexSearch`. -/
def IndexSearch (fs : FakeStorage) (_op : FilterOp) (_v : SqlValue)
    (indices : Indices) : RangeOrBitVector :=
  match fs.strategy with
  | .kAll => .range ⟨0, indices.size⟩
  | .kNone => .range {}
  | .kRange =>
      .bitvector (indices.data.map fun i =>
        (decide (fs.strategy = .kRange) && fs.range_.Contains i) ||
        (decide (fs.strategy = .kBitVector) && fs.bit_vector_.IsSet i))
  | .kBitVector =>
      .bitvector (indices.data.map fun i =>
        (decide (fs.strategy = .kRange) && fs.range_.Contains i) ||
        (decide (fs.strategy = .kBitVector) && fs.bit_vector_.IsSet i))

/-- `FakeStorage::OrderedIndexSearch`: the two-step `partition_point`
scans over pre-grouped indices. -/
def OrderedIndexSearch (fs : FakeStorage) (_op : FilterOp) (_v : SqlValue)
    (indices : Indices) : Range :=
  match fs.strategy with
  | .kAll => ⟨0, indices.size⟩
  | .kNone => {}
  | .kRange =>
      let first_in_range := partitionPoint
        (fun i => !(fs.range_.Contains i)) indices.data
      let first_outside_range := first_in_range + partitionPoint
        (fun i => fs.range_.Contains i) (indices.data.drop first_in_range)
      ⟨first_in_range, first_outside_range⟩
  | .kBitVector =>
      let first_set := partitionPoint
        (fun i => !(fs.bit_vector_.IsSet i)) indices.data
      let first_non_set := first_set + partitionPoint
        (fun i => fs.bit_vector_.IsSet i) (indices.data.drop first_set)
      ⟨first_set, first_non_set⟩

/-- View a FakeStorage as an implementer of the abstract interface, for
use as an overlay's inner storage. -/
def asColumn (fs : FakeStorage) : Column where
  ValidateSearchConstraints := fs.ValidateSearchConstraints
  Search := fs.Search
  IndexSearch := fs.IndexSearch
  OrderedIndexSearch := fs.OrderedIndexSearch

end FakeStorage


/-- The inner word-accumulation loop of `LinearSearchWithComparator`:
`word |= static_cast<uint64_t>(comp_result) << k` for `k` from `0` to
`n - 1` (the C++ loop runs it for all 64 bit positions of one word). -/
def buildWord (f : Nat → Bool) : Nat → Nat
  | 0 => 0
  | k + 1 => buildWord f k ||| ((f k).toNat <<< k)

/-- The fast-path loop of `LinearSearchWithComparator`: each iteration
accumulates one 64-bit word of comparison results starting at data offset
`off` and appends it with `AppendWord`; `n` is the iteration count (the
C++ loop steps its counter by 64 up to `BitsInCompleteWordsUntilFull`,
hence runs `BitsInCompleteWordsUntilFull / 64` times, that quantity being
a multiple of 64). -/
def appendCmpWords (f : Nat → Bool) : Nat → Nat → Builder → Builder
  | _, 0, b => b
  | off, n + 1, b =>
      appendCmpWords f (off + 64) n
        (b.AppendWord (buildWord (fun k => f (off + k)) 64))

/-- `utils::LinearSearchWithComparator` from `utils.h`: three-phase append
— scalar bits up to the builder word boundary, whole 64-bit words, scalar
tail. `data` gives the element at each offset from `data_ptr` (the C++
`cur_val` cursor is the advancing offset argument). -/
def LinearSearchWithComparator {α β : Type} (val : β) (data : Nat → α)
    (comparator : α → β → Bool) (builder : Builder) : Builder :=
  let cmp : Nat → Bool := fun i => comparator (data i) val
  let front_elements := builder.BitsUntilWordBoundaryOrFull
  let b1 := appendRun cmp 0 front_elements builder
  let fast_path_elements := b1.BitsInCompleteWordsUntilFull
  let b2 := appendCmpWords cmp front_elements (fast_path_elements / 64) b1
  let back_elements := b2.BitsUntilFull
  appendRun cmp (front_elements + fast_path_elements) back_elements b2

/-- The naive reference loop the spec describes: append
`comparator(data[i], val)` one element at a time for every remaining bit
of builder capacity. -/
def naiveLinearSearch {α β : Type} (val : β) (data : Nat → α)
    (comparator : α → β → Bool) (builder : Builder) : Builder :=
  appendRun (fun i => comparator (data i) val) 0 builder.BitsUntilFull builder

/-- Test fixture: an overlay over a `kAll` FakeStorage (validation always
`kOk`, every search matches everything) with row 0 non-null and row 1
null. -/
def dKAll2 : DenseNullOverlay :=
  ⟨FakeStorage.asColumn { size_ := 2, strategy := .kAll }, [true, false]⟩

/-- Test fixture: an overlay over a `kRange` FakeStorage matching rows
`[1, 3)` of 5, with nulls at rows 0, 2 and 4. -/
def dRange5 : DenseNullOverlay :=
  ⟨FakeStorage.asColumn { size_ := 5, strategy := .kRange, range_ := ⟨1, 3⟩ },
   [false, true, false, true, false]⟩

/-- Test fixture: an inner column whose constraint validation always
reports `kNoData`. -/
def colNoData : Column :=
  ⟨fun _ _ => .kNoData, fun _ _ _ => .range {}, fun _ _ _ => .range {},
   fun _ _ _ => {}⟩

/-- Test fixture: an overlay over `colNoData` with no null rows. -/
def dNoData2 : DenseNullOverlay := ⟨colNoData, [true, true]⟩

/-- Test fixture: a `kRange` FakeStorage with preset range `[5, 10)`. -/
def fsRange510 : FakeStorage :=
  { size_ := 10, strategy := .kRange, range_ := ⟨5, 10⟩ }

/-! Theorems. -/

theorem BitVector.length_Not (bv : BitVector) : bv.Not.length = bv.length := by
  simp [BitVector.Not]

theorem BitVector.length_And (bv other : BitVector) :
    (bv.And other).length = min bv.length other.length := by
  simp [BitVector.And]

theorem BitVector.length_Or (bv other : BitVector) :
    (bv.Or other).length = min bv.length other.length := by
  simp [BitVector.Or]

theorem BitVector.length_Resize (bv : BitVector) (n : Nat) (fill : Bool) :
    (bv.Resize n fill).length = n := by
  unfold BitVector.Resize
  split
  · simp; omega
  · simp; omega

theorem BitVector.length_IntersectRange (bv : BitVector) (s e : Nat) :
    (bv.IntersectRange s e).length = e := by
  simp [BitVector.IntersectRange]

theorem BitVector.IsSet_eq_getElem? (bv : BitVector) (i : Nat) :
    bv.IsSet i = bv[i]?.getD false := by
  simp [BitVector.IsSet, List.getD_eq_getElem?_getD]

theorem BitVector.IsSet_of_ge (bv : BitVector) (i : Nat) (h : bv.length ≤ i) :
    bv.IsSet i = false := by
  simp [BitVector.IsSet_eq_getElem?, List.getElem?_eq_none h]

theorem BitVector.IsSet_IntersectRange (bv : BitVector) (s e i : Nat) :
    (bv.IntersectRange s e).IsSet i =
      (decide (i < e) && decide (s ≤ i) && bv.IsSet i) := by
  simp only [BitVector.IntersectRange, BitVector.IsSet_eq_getElem?, List.getElem?_map]
  by_cases h : i < e
  · simp [List.getElem?_range h, h, BitVector.IsSet_eq_getElem?]
  · simp [List.getElem?_eq_none (by simpa using Nat.le_of_not_lt h :
      (List.range e).length ≤ i), h]

theorem BitVector.IsSet_Not (bv : BitVector) (i : Nat) :
    bv.Not.IsSet i = (decide (i < bv.length) && !(bv.IsSet i)) := by
  simp only [BitVector.Not, BitVector.IsSet_eq_getElem?, List.getElem?_map]
  by_cases h : i < bv.length
  · simp [List.getElem?_eq_getElem h, h]
  · simp [List.getElem?_eq_none (Nat.le_of_not_lt h), h]

theorem BitVector.IsSet_And (bv other : BitVector) (i : Nat) :
    (bv.And other).IsSet i = (bv.IsSet i && other.IsSet i) := by
  simp only [BitVector.And, BitVector.IsSet_eq_getElem?, List.getElem?_zipWith]
  by_cases h1 : i < bv.length
  · by_cases h2 : i < other.length
    · simp [List.getElem?_eq_getElem h1, List.getElem?_eq_getElem h2]
    · simp [List.getElem?_eq_getElem h1, List.getElem?_eq_none (Nat.le_of_not_lt h2)]
  · by_cases h2 : i < other.length
    · simp [List.getElem?_eq_none (Nat.le_of_not_lt h1), List.getElem?_eq_getElem h2]
    · simp [List.getElem?_eq_none (Nat.le_of_not_lt h1),
        List.getElem?_eq_none (Nat.le_of_not_lt h2)]

theorem BitVector.IsSet_Or (bv other : BitVector) (i : Nat)
    (h1 : i < bv.length) (h2 : i < other.length) :
    (bv.Or other).IsSet i = (bv.IsSet i || other.IsSet i) := by
  simp only [BitVector.Or, BitVector.IsSet_eq_getElem?, List.getElem?_zipWith]
  simp [List.getElem?_eq_getElem h1, List.getElem?_eq_getElem h2]

theorem BitVector.IsSet_Resize_false (bv : BitVector) (n i : Nat) :
    (bv.Resize n false).IsSet i = (decide (i < n) && bv.IsSet i) := by
  unfold BitVector.Resize
  split
  · rename_i hle
    simp only [BitVector.IsSet_eq_getElem?, List.getElem?_take]
    by_cases h : i < n <;> simp [h]
  · rename_i hgt
    simp only [BitVector.IsSet_eq_getElem?, List.getElem?_append]
    by_cases h : i < bv.length
    · simp only [if_pos h]
      have : i < n := by omega
      simp [this]
    · simp only [if_neg h, List.getElem?_replicate,
        List.getElem?_eq_none (Nat.le_of_not_lt h)]
      by_cases h2 : i - bv.length < n - bv.length
      · have : i < n := by omega
        simp [h2, this]
      · have : ¬ i < n := by omega
        simp [h2, this]

theorem appendRun_target (f : Nat → Bool) (off n : Nat) (b : Builder) :
    (appendRun f off n b).target = b.target := by
  induction n generalizing off b with
  | zero => rfl
  | succ n ih => simp [appendRun, ih, Builder.Append]

theorem appendRun_bits (f : Nat → Bool) (off n : Nat) (b : Builder) :
    (appendRun f off n b).bits =
      b.bits ++ (List.range n).map fun i => f (off + i) := by
  induction n generalizing off b with
  | zero => simp [appendRun]
  | succ n ih =>
    rw [appendRun, ih, Builder.Append]
    rw [Nat.add_comm n 1, List.range_add, show List.range 1 = [0] from rfl]
    simp only [List.map_cons, List.map_nil, List.map_map, List.map_append,
      List.append_assoc, List.singleton_append, Nat.add_zero]
    congr 1
    congr 1
    apply List.map_congr_left
    intro a _
    simp only [Function.comp_apply]
    congr 1
    omega

theorem BitVector.IsSet_append (l m : BitVector) (i : Nat) :
    BitVector.IsSet (l ++ m) i =
      if i < l.length then BitVector.IsSet l i else BitVector.IsSet m (i - l.length) := by
  simp only [BitVector.IsSet_eq_getElem?, List.getElem?_append]
  by_cases h : i < l.length <;> simp [h, BitVector.IsSet_eq_getElem?]

theorem BitVector.IsSet_replicate_false (n i : Nat) :
    BitVector.IsSet (List.replicate n false) i = false := by
  simp only [BitVector.IsSet_eq_getElem?, List.getElem?_replicate]
  by_cases h : i < n <;> simp [h]

theorem BitVector.IsSet_map_range (f : Nat → Bool) (n i : Nat) :
    BitVector.IsSet ((List.range n).map f) i = (decide (i < n) && f i) := by
  simp only [BitVector.IsSet_eq_getElem?, List.getElem?_map]
  by_cases h : i < n
  · simp [List.getElem?_range h, h]
  · simp [List.getElem?_eq_none (by simpa using Nat.le_of_not_lt h :
      (List.range n).length ≤ i), h]

theorem Builder.length_Build (b : Builder) : b.Build.length = b.target := by
  simp only [Builder.Build, List.length_take, List.length_append,
    List.length_replicate]
  omega

theorem Builder.IsSet_Build (b : Builder) (i : Nat) :
    b.Build.IsSet i = (decide (i < b.target) && BitVector.IsSet b.bits i) := by
  simp only [Builder.Build, BitVector.IsSet_eq_getElem?, List.getElem?_take,
    List.getElem?_append, List.getElem?_replicate]
  by_cases ht : i < b.target
  · by_cases hb : i < b.bits.length
    · simp [ht, hb]
    · have hr : i - b.bits.length < b.target - b.bits.length := by omega
      simp [ht, hb, hr, List.getElem?_eq_none (Nat.le_of_not_lt hb)]
  · simp [ht]

/-- Claim C1: for every operator `op` other than `IsNull` and every input
range, bit `i` (with `range.start ≤ i < range.stop`) in the BitVector
returned by `DenseNullOverlay::Search(op, v, range)` is true iff the
corresponding bit of the inner storage's result for the same call is true
and `non_null[i]` is true. -/
theorem C1_search_masks_with_non_null (d : DenseNullOverlay) (op : FilterOp)
    (v : SqlValue) (inr : Range) (i : Nat) (hop : op ≠ .kIsNull)
    (h1 : inr.start ≤ i) (h2 : i < inr.stop) :
    ∃ bv, d.Search op v inr = .bitvector bv ∧
      bv.IsSet i = ((d.inner.Search op v inr).bitAt i && d.non_null.IsSet i) := by
  refine ⟨d.SearchRest op v inr, by simp [DenseNullOverlay.Search, hop], ?_⟩
  unfold DenseNullOverlay.SearchRest
  cases hres : d.inner.Search op v inr with
  | range ir =>
    simp only [if_neg hop, RangeOrBitVector.bitAt, BitVector.IsSet_And,
      BitVector.IsSet_Resize_false, BitVector.IsSet_IntersectRange]
    by_cases hA : ir.start ≤ i <;> by_cases hB : i < ir.stop <;>
      cases hN : d.non_null.IsSet i <;> simp [hA, hB, hN, h2]
  | bitvector bvi =>
    simp only [if_neg hop, RangeOrBitVector.bitAt, BitVector.IsSet_And]

/-- Witness for C1 at a concrete overlay (a `kRange` inner matching rows
`[1, 3)` of 5, nulls at rows 0, 2, 4), searching `[0, 5)` at row 1. -/
theorem C1_witness :
    FilterOp.kGe ≠ FilterOp.kIsNull ∧ (⟨0, 5⟩ : Range).start ≤ 1 ∧
      1 < (⟨0, 5⟩ : Range).stop ∧
    ∃ bv, dRange5.Search .kGe (.long 0) ⟨0, 5⟩ = .bitvector bv ∧
      bv.IsSet 1 = ((dRange5.inner.Search .kGe (.long 0) ⟨0, 5⟩).bitAt 1 &&
        dRange5.non_null.IsSet 1) :=
  ⟨by decide, by decide, by decide,
   C1_search_masks_with_non_null dRange5 .kGe (.long 0) ⟨0, 5⟩ 1
     (by decide) (by decide) (by decide)⟩

/-- Claim C2 is false on the code: with an inner storage whose validation
returns `kOk` and whose search reports every row (strategy `kAll`),
`DenseNullOverlay::Search(IsNull, ·, [0, 2))` sets bit 0 although
`non_null[0]` is true — the result is not independent of the inner
storage's content. -/
theorem C2_counterexample :
    ¬ (∀ bv, dKAll2.Search .kIsNull .null ⟨0, 2⟩ = .bitvector bv →
        (bv.IsSet 0 = true ↔ dKAll2.non_null.IsSet 0 = false)) := by
  intro h
  exact absurd ((h [true, true] (by decide)).mp (by decide)) (by decide)

/-- Claim C2 (amended): bit `i` (inside the range) of
`Search(IsNull, v, range)` equals `¬non_null[i]` when the inner
validation reports `kNoData`; when it reports `kAllData` the input range
itself is returned; when it reports `kOk` the bit equals
`¬non_null[i] OR the inner result's corresponding bit` — i.e. it does
depend on the inner storage's content. -/
theorem C2_amended_isnull_search (d : DenseNullOverlay) (v : SqlValue)
    (inr : Range)
    (hbv : ∀ bv, d.inner.Search .kIsNull v inr = .bitvector bv →
      bv.length = inr.stop) :
    (d.inner.ValidateSearchConstraints v .kIsNull = .kNoData →
      ∃ bv, d.Search .kIsNull v inr = .bitvector bv ∧
        ∀ i, inr.start ≤ i → i < inr.stop →
          bv.IsSet i = !(d.non_null.IsSet i)) ∧
    (d.inner.ValidateSearchConstraints v .kIsNull = .kAllData →
      d.Search .kIsNull v inr = .range inr) ∧
    (d.inner.ValidateSearchConstraints v .kIsNull = .kOk →
      ∃ bv, d.Search .kIsNull v inr = .bitvector bv ∧
        ∀ i, inr.start ≤ i → i < inr.stop →
          bv.IsSet i = (!(d.non_null.IsSet i) ||
            (d.inner.Search .kIsNull v inr).bitAt i)) := by
  refine ⟨fun hval => ?_, fun hval => ?_, fun hval => ?_⟩
  · refine ⟨((d.non_null.IntersectRange inr.start inr.stop).Not).Resize inr.stop false,
      by simp [DenseNullOverlay.Search, hval], fun i h1 h2 => ?_⟩
    simp only [BitVector.IsSet_Resize_false, BitVector.IsSet_Not,
      BitVector.length_IntersectRange, BitVector.IsSet_IntersectRange]
    simp [h1, h2]
  · simp [DenseNullOverlay.Search, hval]
  · refine ⟨d.SearchRest .kIsNull v inr,
      by simp [DenseNullOverlay.Search, hval], fun i h1 h2 => ?_⟩
    unfold DenseNullOverlay.SearchRest
    cases hres : d.inner.Search .kIsNull v inr with
    | range ir =>
      rw [if_pos rfl, BitVector.IsSet_Or _ _ i
        (by rw [BitVector.length_Resize]; exact h2)
        (by rw [BitVector.length_Not, BitVector.length_Resize]; exact h2)]
      simp only [RangeOrBitVector.bitAt, BitVector.IsSet_Resize_false,
        BitVector.IsSet_IntersectRange, BitVector.IsSet_Not,
        BitVector.length_Resize, BitVector.Copy]
      by_cases hA : ir.start ≤ i <;> by_cases hB : i < ir.stop <;>
        cases hN : d.non_null.IsSet i <;> simp [hA, hB, hN, h2]
    | bitvector bvi =>
      rw [if_pos rfl, BitVector.IsSet_Or _ _ i
        (by rw [hbv bvi hres]; exact h2)
        (by rw [BitVector.length_Not, BitVector.length_Resize]; exact h2)]
      simp only [RangeOrBitVector.bitAt, BitVector.IsSet_Not,
        BitVector.length_Resize, BitVector.IsSet_Resize_false, BitVector.Copy]
      cases hN : d.non_null.IsSet i <;> simp [hN, h2, Bool.or_comm]

/-- Witness for the amended C2 at a concrete overlay whose inner
validation reports `kOk`. -/
theorem C2_amended_witness :
    ∃ bv, dKAll2.Search .kIsNull .null ⟨0, 2⟩ = .bitvector bv ∧
      ∀ i, (⟨0, 2⟩ : Range).start ≤ i → i < (⟨0, 2⟩ : Range).stop →
        bv.IsSet i = (!(dKAll2.non_null.IsSet i) ||
          (dKAll2.inner.Search .kIsNull .null ⟨0, 2⟩).bitAt i) :=
  (C2_amended_isnull_search dKAll2 .null ⟨0, 2⟩
    (by intro bv h; simp [dKAll2, FakeStorage.asColumn, FakeStorage.Search] at h)).2.2
    (by decide)

theorem Builder.target_init (s k : Nat) : (Builder.init s k).target = s := rfl

theorem Builder.bits_init (s k : Nat) :
    (Builder.init s k).bits = List.replicate k false := rfl

theorem DenseNullOverlay.SearchRest_length (d : DenseNullOverlay)
    (op : FilterOp) (v : SqlValue) (inr : Range)
    (hS : ∀ bv, d.inner.Search op v inr = .bitvector bv → bv.length = inr.stop)
    (hN : inr.stop ≤ d.non_null.length) :
    (d.SearchRest op v inr).length = inr.stop := by
  unfold DenseNullOverlay.SearchRest
  cases hres : d.inner.Search op v inr with
  | range ir =>
    by_cases hop : op = .kIsNull <;>
      simp [hop, BitVector.length_Or, BitVector.length_And,
        BitVector.length_Not, BitVector.length_Resize, Nat.min_eq_left hN]
  | bitvector bvi =>
    by_cases hop : op = .kIsNull <;>
      simp [hop, BitVector.length_Or, BitVector.length_And,
        BitVector.length_Not, BitVector.length_Resize, hS bvi hres,
        Nat.min_eq_left hN]

theorem DenseNullOverlay.IndexSearchRest_bitvector (d : DenseNullOverlay)
    (op : FilterOp) (v : SqlValue) (indices : Indices)
    (hI : ∀ bv, d.inner.IndexSearch op v indices = .bitvector bv →
      bv.length = indices.size) :
    ∃ bv, d.IndexSearchRest op v indices = .bitvector bv ∧
      bv.length = indices.size := by
  unfold DenseNullOverlay.IndexSearchRest
  cases hres : d.inner.IndexSearch op v indices with
  | range ir =>
    exact ⟨_, rfl, by
      rw [Builder.length_Build, appendRun_target, Builder.target_init]⟩
  | bitvector bvi =>
    have hb : (Builder.Build (appendRun
        (fun i => d.non_null.IsSet (indices.data.getD i 0)) 0 indices.size
        (Builder.init indices.size 0))).length = indices.size := by
      rw [Builder.length_Build, appendRun_target, Builder.target_init]
    by_cases hop : op = .kIsNull
    · refine ⟨bvi.Or (Builder.Build (appendRun
          (fun i => d.non_null.IsSet (indices.data.getD i 0)) 0 indices.size
          (Builder.init indices.size 0))).Not, by simp [hop], ?_⟩
      rw [BitVector.length_Or, BitVector.length_Not, hb, hI bvi hres, Nat.min_self]
    · refine ⟨bvi.And (Builder.Build (appendRun
          (fun i => d.non_null.IsSet (indices.data.getD i 0)) 0 indices.size
          (Builder.init indices.size 0))), by simp [hop], ?_⟩
      rw [BitVector.length_And, hb, hI bvi hres, Nat.min_self]

/-- Claim C3: every BitVector returned by `DenseNullOverlay::Search` has
length exactly `range.stop`, and every BitVector (resp. Range) returned
by `DenseNullOverlay::IndexSearch` has length exactly `indices.size`
(resp. is exactly `[0, indices.size)`), assuming the inner storage obeys
the same interface contract. -/
theorem C3_result_sizes (d : DenseNullOverlay) (op : FilterOp) (v : SqlValue)
    (inr : Range) (indices : Indices)
    (hS : ∀ bv, d.inner.Search op v inr = .bitvector bv → bv.length = inr.stop)
    (hN : inr.stop ≤ d.non_null.length)
    (hI : ∀ bv, d.inner.IndexSearch op v indices = .bitvector bv →
      bv.length = indices.size) :
    (∀ bv, d.Search op v inr = .bitvector bv → bv.length = inr.stop) ∧
    (∀ bv, d.IndexSearch op v indices = .bitvector bv → bv.length = indices.size) ∧
    (∀ r, d.IndexSearch op v indices = .range r → r = ⟨0, indices.size⟩) := by
  refine ⟨fun bv hbv => ?_, fun bv hbv => ?_, fun r hr => ?_⟩
  · unfold DenseNullOverlay.Search at hbv
    by_cases hop : op = .kIsNull
    · rw [if_pos hop] at hbv
      cases hval : d.inner.ValidateSearchConstraints v op <;>
        rw [hval] at hbv <;> simp at hbv
      · rw [← hbv, DenseNullOverlay.SearchRest_length d op v inr hS hN]
      · rw [← hbv, BitVector.length_Resize]
    · rw [if_neg hop] at hbv
      simp at hbv
      rw [← hbv, DenseNullOverlay.SearchRest_length d op v inr hS hN]
  · unfold DenseNullOverlay.IndexSearch at hbv
    obtain ⟨bv2, heq, hlen⟩ :=
      DenseNullOverlay.IndexSearchRest_bitvector d op v indices hI
    by_cases hop : op = .kIsNull
    · rw [if_pos hop] at hbv
      cases hval : d.inner.ValidateSearchConstraints v op <;>
        rw [hval] at hbv
      · rw [heq] at hbv
        simp at hbv
        rw [← hbv]; exact hlen
      · simp at hbv
        rw [← hbv, Builder.length_Build, appendRun_target, Builder.target_init]
      · simp at hbv
    · rw [if_neg hop, heq] at hbv
      simp at hbv
      rw [← hbv]; exact hlen
  · unfold DenseNullOverlay.IndexSearch at hr
    obtain ⟨bv2, heq, hlen⟩ :=
      DenseNullOverlay.IndexSearchRest_bitvector d op v indices hI
    by_cases hop : op = .kIsNull
    · rw [if_pos hop] at hr
      cases hval : d.inner.ValidateSearchConstraints v op <;>
        rw [hval] at hr <;> rw [heq] at hr <;> simp at hr
      exact hr.symm
    · rw [if_neg hop, heq] at hr
      simp at hr

/-- Witness for C3 at a concrete overlay, range and indices. -/
theorem C3_witness :
    (∀ bv, dKAll2.Search .kGe .null ⟨0, 2⟩ = .bitvector bv → bv.length = 2) ∧
    (∀ bv, dKAll2.IndexSearch .kGe .null ⟨[1, 0], .kUnknown⟩ = .bitvector bv →
      bv.length = Indices.size ⟨[1, 0], .kUnknown⟩) ∧
    (∀ r, dKAll2.IndexSearch .kGe .null ⟨[1, 0], .kUnknown⟩ = .range r →
      r = ⟨0, Indices.size ⟨[1, 0], .kUnknown⟩⟩) :=
  C3_result_sizes dKAll2 .kGe .null ⟨0, 2⟩ ⟨[1, 0], .kUnknown⟩
    (by intro bv h; simp [dKAll2, FakeStorage.asColumn, FakeStorage.Search] at h)
    (by decide)
    (by intro bv h; simp [dKAll2, FakeStorage.asColumn, FakeStorage.IndexSearch] at h)

/-- Claim C4 is false on the code: with inner validation `kNoData` and
`range = [1, 2)` over `non_null = [1, 1]`, the returned BitVector has bit
0 — below `range.start` — SET (the `Not()` flips the zero prefix that
`IntersectRange` produced), not unset as claimed. -/
theorem C4_counterexample :
    ¬ (∀ bv, dNoData2.Search .kIsNull .null ⟨1, 2⟩ = .bitvector bv →
        bv.IsSet 0 = false) := by
  intro h
  exact absurd (h [true, false] (by decide)) (by decide)

/-- Claim C4 (amended): when the inner storage classifies `IsNull` as
`kNoData` and `range.start > 0`, `Search(IsNull, v, range)` returns a
BitVector of length `range.stop` whose bits in `[range.start, range.stop)`
are true exactly at the null rows, and whose bits in `[0, range.start)`
are all SET (not unset: `Not()` flips the zero prefix produced by
`IntersectRange`). -/
theorem C4_amended_isnull_nodata (d : DenseNullOverlay) (v : SqlValue)
    (inr : Range) (h0 : 0 < inr.start)
    (hval : d.inner.ValidateSearchConstraints v .kIsNull = .kNoData) :
    ∃ bv, d.Search .kIsNull v inr = .bitvector bv ∧ bv.length = inr.stop ∧
      (∀ i, inr.start ≤ i → i < inr.stop → bv.IsSet i = !(d.non_null.IsSet i)) ∧
      (∀ i, i < inr.start → i < inr.stop → bv.IsSet i = true) := by
  refine ⟨((d.non_null.IntersectRange inr.start inr.stop).Not).Resize inr.stop false,
    by simp [DenseNullOverlay.Search, hval], BitVector.length_Resize _ _ _,
    fun i h1 h2 => ?_, fun i h1 h2 => ?_⟩
  · simp only [BitVector.IsSet_Resize_false, BitVector.IsSet_Not,
      BitVector.length_IntersectRange, BitVector.IsSet_IntersectRange]
    simp [h1, h2]
  · simp only [BitVector.IsSet_Resize_false, BitVector.IsSet_Not,
      BitVector.length_IntersectRange, BitVector.IsSet_IntersectRange]
    have hns : ¬ inr.start ≤ i := by omega
    simp [hns, h2]

/-- Witness for the amended C4 at the concrete overlay of the
counterexample. -/
theorem C4_amended_witness :
    ∃ bv, dNoData2.Search .kIsNull .null ⟨1, 2⟩ = .bitvector bv ∧
      bv.length = (⟨1, 2⟩ : Range).stop ∧
      (∀ i, (⟨1, 2⟩ : Range).start ≤ i → i < (⟨1, 2⟩ : Range).stop →
        bv.IsSet i = !(dNoData2.non_null.IsSet i)) ∧
      (∀ i, i < (⟨1, 2⟩ : Range).start → i < (⟨1, 2⟩ : Range).stop →
        bv.IsSet i = true) :=
  C4_amended_isnull_nodata dNoData2 .null ⟨1, 2⟩ (by decide) (by decide)

/-- Claim C5 is false on the code: with inner validation `kOk` and an
inner `IndexSearch` returning a Range, `DenseNullOverlay::IndexSearch`
returns the masked BitVector directly (bit `p` is `non_null[data[p]]`
inside the inner range) without building the parallel nullness BitVector
or applying the OR rule: here position 1 refers to a null row yet its
result bit is false. -/
theorem C5_counterexample :
    ¬ (∀ bv, dKAll2.IndexSearch .kIsNull .null ⟨[0, 1], .kUnknown⟩ = .bitvector bv →
        (dKAll2.non_null.IsSet 1 = false → bv.IsSet 1 = true)) := by
  intro h
  exact absurd (h [true, false] (by decide) (by decide)) (by decide)

/-- Claim C5 (amended): when `op = IsNull`, inner validation is `kOk` and
the inner `IndexSearch` returns a Range, the overlay returns the masked
BitVector directly — bit `p` is true iff `p` lies inside the inner range
AND `non_null[indices.data[p]]` is true; no nullness BitVector is built
and no OR combination is applied, so null positions (inside or outside
the inner range) are NOT set. -/
theorem C5_amended_indexsearch_range_branch (d : DenseNullOverlay)
    (v : SqlValue) (indices : Indices) (ir : Range)
    (hval : d.inner.ValidateSearchConstraints v .kIsNull = .kOk)
    (hres : d.inner.IndexSearch .kIsNull v indices = .range ir) :
    ∃ bv, d.IndexSearch .kIsNull v indices = .bitvector bv ∧
      bv.length = indices.size ∧
      ∀ p, p < indices.size →
        bv.IsSet p = (decide (ir.start ≤ p) && decide (p < ir.stop) &&
          d.non_null.IsSet (indices.data.getD p 0)) := by
  have hunfold : d.IndexSearch .kIsNull v indices =
      .bitvector (Builder.Build (appendRun
        (fun i => d.non_null.IsSet (indices.data.getD i 0))
        ir.start (ir.stop - ir.start) (Builder.init indices.size ir.start))) := by
    unfold DenseNullOverlay.IndexSearch DenseNullOverlay.IndexSearchRest
    rw [if_pos rfl, hval, hres]
  refine ⟨_, hunfold, by
    rw [Builder.length_Build, appendRun_target, Builder.target_init], fun p hp => ?_⟩
  rw [Builder.IsSet_Build]
  rw [show (appendRun (fun i => d.non_null.IsSet (indices.data.getD i 0))
      ir.start (ir.stop - ir.start) (Builder.init indices.size ir.start)).bits =
      List.replicate ir.start false ++
        (List.range (ir.stop - ir.start)).map
          (fun j => d.non_null.IsSet (indices.data.getD (ir.start + j) 0))
    from by rw [appendRun_bits, Builder.bits_init]]
  rw [appendRun_target, Builder.target_init, BitVector.IsSet_append]
  simp only [List.length_replicate]
  by_cases hlt : p < ir.start
  · have h1 : ¬ ir.start ≤ p := by omega
    simp [hlt, h1, BitVector.IsSet_replicate_false, hp]
  · rw [if_neg hlt, BitVector.IsSet_map_range]
    have h1 : ir.start ≤ p := by omega
    have harg : ir.start + (p - ir.start) = p := by omega
    rw [harg]
    by_cases h2 : p < ir.stop
    · have h3 : p - ir.start < ir.stop - ir.start := by omega
      simp [h1, h2, h3, hp]
    · have h3 : ¬ (p - ir.start < ir.stop - ir.start) := by omega
      simp [h1, h2, h3, hp]

/-- Witness for the amended C5 at the concrete overlay of the
counterexample (inner `kAll` returns the Range `[0, 2)`). -/
theorem C5_amended_witness :
    ∃ bv, dKAll2.IndexSearch .kIsNull .null ⟨[0, 1], .kUnknown⟩ = .bitvector bv ∧
      bv.length = Indices.size ⟨[0, 1], .kUnknown⟩ ∧
      ∀ p, p < Indices.size ⟨[0, 1], .kUnknown⟩ →
        bv.IsSet p = (decide ((⟨0, 2⟩ : Range).start ≤ p) &&
          decide (p < (⟨0, 2⟩ : Range).stop) &&
          dKAll2.non_null.IsSet ((⟨[0, 1], .kUnknown⟩ : Indices).data.getD p 0)) :=
  C5_amended_indexsearch_range_branch dKAll2 .null ⟨[0, 1], .kUnknown⟩ ⟨0, 2⟩
    (by decide) (by decide)

theorem takeWhile_length_of_partitioned (p : Nat → Bool) (l : List Nat) (k : Nat)
    (hk : k ≤ l.length)
    (h1 : ∀ x ∈ l.take k, p x = true)
    (h2 : ∀ x ∈ l.drop k, p x = false) :
    (l.takeWhile p).length = k := by
  induction l generalizing k with
  | nil =>
    simp only [List.length_nil, Nat.le_zero] at hk
    simp [hk]
  | cons a t ih =>
    cases k with
    | zero =>
      have ha : p a = false := h2 a (by simp)
      simp [List.takeWhile_cons, ha]
    | succ k =>
      have ha : p a = true := h1 a (by simp)
      rw [List.takeWhile_cons_of_pos ha, List.length_cons]
      congr 1
      exact ih k (by simpa using hk)
        (fun x hx => h1 x (by simpa using Or.inr hx))
        (fun x hx => h2 x (by simpa using hx))

theorem DenseNullOverlay.OrderedIndexSearch_isSome (d : DenseNullOverlay)
    (op : FilterOp) (v : SqlValue) (indices : Indices) (hne : op ≠ .kNe) :
    ∃ r, d.OrderedIndexSearch op v indices = some r := by
  unfold DenseNullOverlay.OrderedIndexSearch
  simp only [if_neg hne]
  by_cases h2 : op = .kIsNull
  · simp [h2]
  · simp only [if_neg h2]
    by_cases h3 : op = .kIsNotNull
    · simp only [if_pos h3]
      cases hval : d.inner.ValidateSearchConstraints v op <;> simp [hval]
    · simp [h3]

/-- Claim C6: on nulls-first-grouped indices (every null-row position
precedes every non-null-row position, `k` null positions in front),
`DenseNullOverlay::OrderedIndexSearch(IsNull, v, indices)` returns the
range `[0, k)`. -/
theorem C6_ordered_isnull_prefix_range (d : DenseNullOverlay) (v : SqlValue)
    (indices : Indices) (k : Nat) (hk : k ≤ indices.size)
    (h1 : ∀ x ∈ indices.data.take k, d.non_null.IsSet x = false)
    (h2 : ∀ x ∈ indices.data.drop k, d.non_null.IsSet x = true) :
    d.OrderedIndexSearch .kIsNull v indices = some ⟨0, k⟩ := by
  unfold DenseNullOverlay.OrderedIndexSearch
  rw [if_neg (by decide), if_pos rfl]
  have hpp : partitionPoint (fun i => !(d.non_null.IsSet i)) indices.data = k := by
    unfold partitionPoint
    exact takeWhile_length_of_partitioned _ indices.data k hk
      (fun x hx => by simp [h1 x hx]) (fun x hx => by simp [h2 x hx])
  rw [hpp]

/-- Witness for C6 at a concrete overlay and indices `[1, 0]` (row 1 null,
row 0 non-null, so `k = 1`). -/
theorem C6_witness :
    dKAll2.OrderedIndexSearch .kIsNull .null ⟨[1, 0], .kUnknown⟩ = some ⟨0, 1⟩ :=
  C6_ordered_isnull_prefix_range dKAll2 .null ⟨[1, 0], .kUnknown⟩ 1
    (by decide) (by decide) (by decide)

/-- Claim C7: `DenseNullOverlay::OrderedIndexSearch` hits its fatal check
iff `op` is the not-equal operator (for every other operator a Range is
returned), and `Sort`/`StableSort` abort fatally on every invocation. -/
theorem C7_fatal_paths (d : DenseNullOverlay) (op : FilterOp) (v : SqlValue)
    (indices : Indices) (l : List Nat) :
    (d.OrderedIndexSearch op v indices = none ↔ op = .kNe) ∧
    d.SortRows l = none ∧ d.StableSort l = none := by
  refine ⟨⟨fun h => ?_, fun h => by simp [DenseNullOverlay.OrderedIndexSearch, h]⟩,
    rfl, rfl⟩
  by_contra hne
  obtain ⟨r, hr⟩ := DenseNullOverlay.OrderedIndexSearch_isSome d op v indices hne
  rw [hr] at h
  cases h

/-- Claim C8 is false on the code: with preset range `[5, 10)` and input
range `[0, 3)` (disjoint), `FakeStorage::Search` under `kRange` returns
`Range(5, 3)`, which violates `start ≤ end`. -/
theorem C8_counterexample :
    ¬ (∀ r, fsRange510.Search .kGe .null ⟨0, 3⟩ = .range r → r.start ≤ r.stop) := by
  intro h
  exact absurd (h ⟨5, 3⟩ (by decide)) (by decide)

/-- Claim C8 (amended): under the `kRange` strategy, `FakeStorage::Search`
returns `Range(max(in.start, range_.start), min(in.stop, range_.stop))`;
as a set of rows this is exactly the intersection of the preset range
with the input range, and it satisfies `start ≤ stop` whenever the two
ranges actually intersect — but for disjoint ranges the returned value
can have `start > stop` (an invalid Range), not an empty valid range. -/
theorem C8_amended_krange_search (fs : FakeStorage) (op : FilterOp)
    (v : SqlValue) (inr : Range) (hs : fs.strategy = .kRange) :
    fs.Search op v inr =
      .range ⟨max inr.start fs.range_.start, min inr.stop fs.range_.stop⟩ ∧
    (∀ j, Range.Contains ⟨max inr.start fs.range_.start,
        min inr.stop fs.range_.stop⟩ j =
      (inr.Contains j && fs.range_.Contains j)) ∧
    ((∃ j, inr.Contains j = true ∧ fs.range_.Contains j = true) →
      max inr.start fs.range_.start ≤ min inr.stop fs.range_.stop) := by
  refine ⟨by simp [FakeStorage.Search, hs], fun j => ?_, fun ⟨j, hj1, hj2⟩ => ?_⟩
  · by_cases h1 : inr.start ≤ j <;> by_cases h2 : j < inr.stop <;>
      by_cases h3 : fs.range_.start ≤ j <;> by_cases h4 : j < fs.range_.stop <;>
        simp [Range.Contains, Nat.max_le, Nat.lt_min, h1, h2, h3, h4]
  · simp only [Range.Contains, Bool.and_eq_true, decide_eq_true_eq] at hj1 hj2
    omega

/-- Witness for the amended C8: preset range `[5, 10)`, overlapping input
range `[0, 7)`. -/
theorem C8_amended_witness :
    fsRange510.Search .kGe .null ⟨0, 7⟩ = .range ⟨5, 7⟩ ∧
    max (⟨0, 7⟩ : Range).start fsRange510.range_.start ≤
      min (⟨0, 7⟩ : Range).stop fsRange510.range_.stop :=
  ⟨by simpa using (C8_amended_krange_search fsRange510 .kGe .null ⟨0, 7⟩ rfl).1,
   (C8_amended_krange_search fsRange510 .kGe .null ⟨0, 7⟩ rfl).2.2
     ⟨5, by decide, by decide⟩⟩

/-- Claim C10: for every ordering/equality operator (`op` not `Ne`,
`IsNull` or `IsNotNull`) and nulls-first-grouped indices with `k` null
positions in front, `DenseNullOverlay::OrderedIndexSearch` skips the
inner validation short-circuit (the result below does not involve
`ValidateSearchConstraints`), calls the inner `OrderedIndexSearch` on
exactly the non-null suffix tagged nonmonotonic, and shifts both
endpoints of the inner result up by `k`. -/
theorem C10_ordered_value_op_delegates (d : DenseNullOverlay) (op : FilterOp)
    (v : SqlValue) (indices : Indices) (k : Nat)
    (hop1 : op ≠ .kNe) (hop2 : op ≠ .kIsNull) (hop3 : op ≠ .kIsNotNull)
    (hk : k ≤ indices.size)
    (h1 : ∀ x ∈ indices.data.take k, d.non_null.IsSet x = false)
    (h2 : ∀ x ∈ indices.data.drop k, d.non_null.IsSet x = true) :
    d.OrderedIndexSearch op v indices =
      some ⟨(d.inner.OrderedIndexSearch op v
          ⟨indices.data.drop k, .kNonmonotonic⟩).start + k,
        (d.inner.OrderedIndexSearch op v
          ⟨indices.data.drop k, .kNonmonotonic⟩).stop + k⟩ := by
  unfold DenseNullOverlay.OrderedIndexSearch
  have hpp : partitionPoint (fun i => !(d.non_null.IsSet i)) indices.data = k := by
    unfold partitionPoint
    exact takeWhile_length_of_partitioned _ indices.data k hk
      (fun x hx => by simp [h1 x hx]) (fun x hx => by simp [h2 x hx])
  simp only [if_neg hop1, hpp, if_neg hop2, if_neg hop3]

/-- Witness for C10 at a concrete overlay (inner `kAll`), operator `Ge`
and indices `[1, 0]` (`k = 1`). -/
theorem C10_witness :
    dKAll2.OrderedIndexSearch .kGe .null ⟨[1, 0], .kUnknown⟩ =
      some ⟨(dKAll2.inner.OrderedIndexSearch .kGe .null
          ⟨[0], .kNonmonotonic⟩).start + 1,
        (dKAll2.inner.OrderedIndexSearch .kGe .null
          ⟨[0], .kNonmonotonic⟩).stop + 1⟩ :=
  C10_ordered_value_op_delegates dKAll2 .kGe .null ⟨[1, 0], .kUnknown⟩ 1
    (by decide) (by decide) (by decide) (by decide) (by decide) (by decide)

theorem Builder.ext2 (x y : Builder) (h1 : x.target = y.target)
    (h2 : x.bits = y.bits) : x = y := by
  cases x; cases y; cases h1; cases h2; rfl

theorem appendRun_eq (f : Nat → Bool) (off n : Nat) (b : Builder) :
    appendRun f off n b =
      ⟨b.target, b.bits ++ (List.range n).map fun i => f (off + i)⟩ :=
  Builder.ext2 _ _ (appendRun_target f off n b) (appendRun_bits f off n b)

theorem buildWord_testBit (f : Nat → Bool) (n j : Nat) :
    (buildWord f n).testBit j = (decide (j < n) && f j) := by
  induction n with
  | zero => simp [buildWord]
  | succ n ih =>
    rw [buildWord, Nat.testBit_lor, ih, Nat.testBit_shiftLeft]
    have h1 : ∀ m : Nat, (1 : Nat).testBit m = decide (0 = m) := by
      intro m; simpa using @Nat.testBit_two_pow 0 m
    by_cases hj : j < n
    · have hj2 : j < n + 1 := by omega
      have hge : ¬ (j ≥ n) := by omega
      simp [hj, hj2, hge]
    · by_cases hje : j = n
      · subst hje
        cases hf : f j <;> simp [hf, h1]
      · have hj2 : ¬ (j < n + 1) := by omega
        have hne : ¬ (0 = j - n) := by omega
        cases hfn : f n <;> simp [hj, hj2, hne, h1, hfn]

theorem Builder.AppendWord_buildWord (b : Builder) (g : Nat → Bool) :
    b.AppendWord (buildWord g 64) = ⟨b.target, b.bits ++ (List.range 64).map g⟩ := by
  unfold Builder.AppendWord
  apply Builder.ext2
  · rfl
  · dsimp only
    apply congrArg
    apply List.map_congr_left
    intro k hk
    rw [buildWord_testBit]
    simp [List.mem_range.mp hk]

theorem appendCmpWords_bits (f : Nat → Bool) (off n : Nat) (b : Builder) :
    appendCmpWords f off n b =
      ⟨b.target, b.bits ++ (List.range (n * 64)).map fun i => f (off + i)⟩ := by
  induction n generalizing off b with
  | zero => simp [appendCmpWords]
  | succ n ih =>
    rw [appendCmpWords, ih, Builder.AppendWord_buildWord]
    apply Builder.ext2
    · rfl
    · dsimp only
      rw [show (n + 1) * 64 = 64 + n * 64 from by ring, List.range_add]
      simp only [List.map_append, List.map_map, List.append_assoc]
      congr 1
      congr 1
      apply List.map_congr_left
      intro a _
      simp only [Function.comp_apply]
      congr 1
      omega

theorem appendCmpWords_eq_appendRun (f : Nat → Bool) (off n : Nat) (b : Builder) :
    appendCmpWords f off n b = appendRun f off (n * 64) b := by
  rw [appendCmpWords_bits, appendRun_eq]

theorem appendRun_appendRun (f : Nat → Bool) (off n m : Nat) (b : Builder) :
    appendRun f (off + n) m (appendRun f off n b) =
      appendRun f off (n + m) b := by
  rw [appendRun_eq f off n b, appendRun_eq, appendRun_eq]
  apply Builder.ext2
  · rfl
  · dsimp only
    rw [List.range_add, List.map_append, List.map_map, List.append_assoc]
    congr 2
    apply List.map_congr_left
    intro a _
    simp only [Function.comp_apply]
    congr 1
    omega

theorem appendRun_appendRun_zero (f : Nat → Bool) (n m : Nat) (b : Builder) :
    appendRun f n m (appendRun f 0 n b) = appendRun f 0 (n + m) b := by
  have h := appendRun_appendRun f 0 n m b
  rwa [Nat.zero_add] at h

theorem appendRun_BitsUntilFull (f : Nat → Bool) (off n : Nat) (b : Builder) :
    (appendRun f off n b).BitsUntilFull = b.BitsUntilFull - n := by
  rw [appendRun_eq]
  simp only [Builder.BitsUntilFull, List.length_append, List.length_map,
    List.length_range]
  omega

theorem Builder.BitsInCompleteWordsUntilFull_div_mul (b : Builder) :
    (b.BitsInCompleteWordsUntilFull / 64) * 64 = b.BitsInCompleteWordsUntilFull := by
  unfold Builder.BitsInCompleteWordsUntilFull
  omega

theorem Builder.BitsUntilWordBoundaryOrFull_le (b : Builder) :
    b.BitsUntilWordBoundaryOrFull ≤ b.BitsUntilFull :=
  Nat.min_le_right _ _

/-- Claim C9: for every data array, target value, comparator and starting
builder state, the three-phase `LinearSearchWithComparator` (scalar
prefix to the word boundary, 64-element word-at-a-time middle phase,
scalar tail) appends exactly the same bit sequence as the naive loop that
appends `comparator(data[i], val)` one element at a time for all
remaining builder capacity. -/
theorem C9_linear_search_equals_naive {α β : Type} (val : β) (data : Nat → α)
    (comparator : α → β → Bool) (builder : Builder) :
    LinearSearchWithComparator val data comparator builder =
      naiveLinearSearch val data comparator builder := by
  simp only [LinearSearchWithComparator, naiveLinearSearch]
  rw [appendCmpWords_eq_appendRun, Builder.BitsInCompleteWordsUntilFull_div_mul,
    appendRun_appendRun, appendRun_appendRun_zero]
  congr 2
  simp only [appendRun_BitsUntilFull, Builder.BitsInCompleteWordsUntilFull]
  have hA := Builder.BitsUntilWordBoundaryOrFull_le builder
  omega

end Perfetto
